import Mathlib

/-!
Verification of the rindag judge core (crates/judge) against its specification.

Strings are modelled as lists of Unicode scalar values (`List Nat`): a Rust
`String` is a sequence of `char`s, and byte-level operations are recovered
through the UTF-8 byte length of each scalar value.  Floating point scores
(`f32`) are modelled as exact rationals `ℚ`; the only operations the judge
performs on scores are `min`, `clamp` and sum-of-products, which are exact.
The value `f32::INFINITY`, used as the start of the per-test minimum fold in
`Subtask::judge`, is modelled as `none : Option ℚ` with `none` standing for
`+∞`.
-/

namespace Rindag

/-- Scalar values of a Lean string literal, used to write concrete inputs. -/
def strChars (s : String) : List Nat := s.data.map Char.toNat

/-! ## result.rs: `limit_message`

`limit_message` (crates/judge/src/result.rs) is

```rust
const LIMIT: usize = 1024;
if s.as_bytes().len() <= LIMIT { return s.to_string(); }
return String::from_utf8_lossy(&s.bytes().into_iter().take(LIMIT - 3).collect::<Vec<_>>())
  .to_string() + "...";
```

`utf8Len c` is the number of bytes of the UTF-8 encoding of the scalar value
`c`, and `strBytes` is `s.as_bytes().len()`.  Taking the first `n` bytes of a
valid UTF-8 string keeps every character wholly inside the first `n` bytes
and, when the cut splits a character, leaves a (strict, still valid) prefix
of that character's encoding; `String::from_utf8_lossy` decodes such a
truncated tail as a single U+FFFD replacement character (maximal-subpart
substitution).  `lossyTake n` captures exactly this composition at the
character level. -/

/-- Number of bytes in the UTF-8 encoding of the scalar value `c`. -/
def utf8Len (c : Nat) : Nat :=
  if c < 0x80 then 1 else if c < 0x800 then 2 else if c < 0x10000 then 3 else 4

/-- Model of `s.as_bytes().len()`. -/
def strBytes (s : List Nat) : Nat := (s.map utf8Len).sum

/-- Model of `String::from_utf8_lossy(&s.bytes().take(n).collect())`: the
characters wholly inside the first `n` bytes, followed by one U+FFFD when the
byte cut splits a character. -/
def lossyTake (n : Nat) : List Nat → List Nat
  | [] => []
  | c :: cs =>
    if utf8Len c ≤ n then c :: lossyTake (n - utf8Len c) cs
    else if n = 0 then [] else [0xFFFD]

/-- Model of `limit_message` (result.rs).  `46` is the ASCII dot: the source
appends the three-character string `"..."`. -/
def limit_message (s : List Nat) : List Nat :=
  if strBytes s ≤ 1024 then s else lossyTake 1021 s ++ [46, 46, 46]

/-- Longest prefix of `s` whose UTF-8 byte length is at most `n` (a character
boundary cut). -/
def boundaryTake (n : Nat) : List Nat → List Nat
  | [] => []
  | c :: cs => if utf8Len c ≤ n then c :: boundaryTake (n - utf8Len c) cs else []

/-- Modelled from the spec words of C7 (not from the source): truncation "to
the first 1024 bytes on a UTF-8 character boundary" with the single character
"…" (U+2026) appended.  Used only to compare the claim against the source
definition `limit_message`. -/
def limitMessageSpec (s : List Nat) : List Nat :=
  if strBytes s ≤ 1024 then s else boundaryTake 1024 s ++ [0x2026]

/-! ## checker.rs: `Output::parse`

The testlib output parser (crates/judge/src/checker.rs, `Output::parse`, and
its twin `parse_output` in testlib.rs).  The regular expressions of the
source are translated literally:

* `AC_PAT = (?s)\Aok\s*(.*?)\s*\z` and its `wrong answer` / `FAIL` /
  `wrong output format` analogues match exactly the strings with that literal
  prefix, and capture the remainder with surrounding whitespace trimmed;
* `PC_PAT = (?s)\A(?:partially correct|points) \(?([0-9]*\.?[0-9]*)\)?\s*(.*?)\s*\z`
  requires the keyword plus one space, then an optional `(`, a possibly empty
  decimal token, an optional `)`, then captures the trimmed remainder;
* `CUSTOM_PAT = (?m)^[ \t]*(status|score)\((\w+)\)[ \t]*(.*?)\s*$` matches,
  line by line, lines that after optional spaces/tabs read
  `status(<word>)…` or `score(<word>)…`, with `<word>` a non-empty run of
  word characters (which therefore can never contain a `.`).

Word characters are modelled as ASCII `[0-9A-Za-z_]` (Rust's `\w` also
accepts non-ASCII letters; the override names and numbers in scope are all
ASCII).  Whitespace `\s` is the Unicode White_Space set. -/

/-- ASCII decimal digit. -/
def isDigitChar (c : Nat) : Bool := 48 ≤ c && c ≤ 57

/-- Word character of the `\w` class, restricted to ASCII `[0-9A-Za-z_]`. -/
def isWordChar (c : Nat) : Bool :=
  (48 ≤ c && c ≤ 57) || (65 ≤ c && c ≤ 90) || (97 ≤ c && c ≤ 122) || c == 95

/-- Unicode White_Space, the `\s` class of the Rust regex crate. -/
def isWsChar (c : Nat) : Bool :=
  [9, 10, 11, 12, 13, 32, 0x85, 0xA0, 0x1680, 0x2000, 0x2001, 0x2002, 0x2003,
    0x2004, 0x2005, 0x2006, 0x2007, 0x2008, 0x2009, 0x200A, 0x2028, 0x2029,
    0x202F, 0x205F, 0x3000].contains c

/-- Strip `\s` from both ends, the effect of a greedy `\s*` before and after
a lazy anchored capture group. -/
def trimChars (l : List Nat) : List Nat :=
  ((l.dropWhile isWsChar).reverse.dropWhile isWsChar).reverse

/-- Split on `'\n'` (code 10), the line structure seen by `(?m)^ … $`. -/
def splitLines : List Nat → List (List Nat)
  | [] => [[]]
  | c :: cs =>
    if c = 10 then [] :: splitLines cs
    else
      match splitLines cs with
      | [] => [[c]]
      | h :: t => (c :: h) :: t

/-- Numeric value of a run of ASCII digits. -/
def natOfDigits (l : List Nat) : Nat := l.foldl (fun a c => a * 10 + (c - 48)) 0

/-- Greedy match of `[0-9]*\.?[0-9]*`: the token and the rest. -/
def takeDecimalToken (l : List Nat) : List Nat × List Nat :=
  let d1 := l.takeWhile isDigitChar
  let r1 := l.drop d1.length
  match r1 with
  | 46 :: r2 =>
    let d2 := r2.takeWhile isDigitChar
    (d1 ++ 46 :: d2, r2.drop d2.length)
  | _ => (d1, r1)

/-- Rust `str::parse::<f32>` on a `[0-9]*\.?[0-9]*` token: at least one digit
is required, `"1."` and `".5"` parse, `""` and `"."` do not. -/
def parseDecimal (tok : List Nat) : Option ℚ :=
  let ip := tok.takeWhile isDigitChar
  let rest := tok.drop ip.length
  match rest with
  | [] => if ip = [] then none else some (mkRat (natOfDigits ip) 1)
  | 46 :: fp =>
    if ip = [] ∧ fp = [] then none
    else some (mkRat (natOfDigits ip * 10 ^ fp.length + natOfDigits fp)
      (10 ^ fp.length))
  | _ => none

/-- Rust `cap[2].parse::<f32>()` on a `\w+` token, which is a run of ASCII
digits in every realistic case.  (Rust would also accept word-shaped exotic
forms such as `1e5`, `inf` or `nan`; testlib never emits them and no claim
depends on them, so they are modelled as parse failures.) -/
def parseScoreWord (w : List Nat) : Option ℚ :=
  if w ≠ [] ∧ w.all isDigitChar then some (mkRat (natOfDigits w) 1) else none

/-- Rust `f32::clamp(0., 1.)`. -/
def clamp01 (q : ℚ) : ℚ := min 1 (max 0 q)

/-- Checker status (`checker::Status`, the five testlib verdict statuses,
serialized in snake_case by strum). -/
inductive CheckerStatus
  | accepted
  | wrongAnswer
  | partiallyCorrect
  | presentationError
  | systemError
deriving DecidableEq

/-- Model of `Status::from_str` over the snake_case names. -/
def statusFromStr (w : List Nat) : Option CheckerStatus :=
  if w = strChars "accepted" then some .accepted
  else if w = strChars "wrong_answer" then some .wrongAnswer
  else if w = strChars "partially_correct" then some .partiallyCorrect
  else if w = strChars "presentation_error" then some .presentationError
  else if w = strChars "system_error" then some .systemError
  else none

/-- Parsed testlib checker output (checker.rs `Output`). -/
structure Output where
  status : CheckerStatus
  score : ℚ
  message : List Nat
deriving DecidableEq

/-- Match `\w+\)` at the start of `l` (the text right after `status(` or
`score(`); everything after the closing paren is unconstrained, as
`[ \t]*(.*?)\s*$` matches any line remainder. -/
def matchParenWord (l : List Nat) : Option (List Nat) :=
  let w := l.takeWhile isWordChar
  if w = [] then none
  else
    match l.drop w.length with
    | 41 :: _ => some w
    | _ => none

/-- Match of one line against `CUSTOM_PAT`: `some (true, w)` for a `status(w)` line,
`some (false, w)` for a `score(w)` line. -/
def lineOverride (line : List Nat) : Option (Bool × List Nat) :=
  let l := line.dropWhile (fun c => c == 32 || c == 9)
  if (strChars "status(").isPrefixOf l then
    (matchParenWord (l.drop 7)).map (fun w => (true, w))
  else if (strChars "score(").isPrefixOf l then
    (matchParenWord (l.drop 6)).map (fun w => (false, w))
  else none

/-- The prefix-pattern cascade of `Output::parse` before the custom
overrides. -/
def Output.parseBase (s : List Nat) : Output :=
  if (strChars "ok").isPrefixOf s then
    ⟨.accepted, 1, limit_message (strChars "ac " ++ trimChars (s.drop 2))⟩
  else if (strChars "wrong answer").isPrefixOf s then
    ⟨.wrongAnswer, 0, limit_message (strChars "wa " ++ trimChars (s.drop 12))⟩
  else if (strChars "FAIL").isPrefixOf s then
    ⟨.systemError, 0, limit_message (strChars "fail " ++ trimChars (s.drop 4))⟩
  else if (strChars "wrong output format").isPrefixOf s then
    ⟨.presentationError, 0,
      limit_message (strChars "pe " ++ trimChars (s.drop 19))⟩
  else if (strChars "partially correct ").isPrefixOf s ∨
      (strChars "points ").isPrefixOf s then
    let rest0 :=
      if (strChars "partially correct ").isPrefixOf s then s.drop 18
      else s.drop 7
    let rest1 := match rest0 with | 40 :: r => r | _ => rest0
    let tr := takeDecimalToken rest1
    let rest3 := match tr.2 with | 41 :: r => r | _ => tr.2
    match parseDecimal tr.1 with
    | none => ⟨.systemError, 0, limit_message s⟩
    | some q =>
      if 1 ≤ q then
        ⟨.accepted, 1, limit_message (strChars "ac " ++ trimChars rest3)⟩
      else if q ≤ 0 then
        ⟨.wrongAnswer, 0, limit_message (strChars "wa " ++ trimChars rest3)⟩
      else ⟨.partiallyCorrect, q,
        limit_message (strChars "pc " ++ trimChars rest3)⟩
  else ⟨.systemError, 0, limit_message s⟩

/-- Model of the `CUSTOM_PAT` loop: later lines override earlier ones; unknown status
names and unparseable scores are ignored; scores are clamped to `[0,1]`. -/
def Output.applyOverrides (s : List Nat) (base : Output) : Output :=
  (splitLines s).foldl
    (fun acc line =>
      match lineOverride line with
      | some (true, w) =>
        match statusFromStr w with
        | some st => { acc with status := st }
        | none => acc
      | some (false, w) =>
        match parseScoreWord w with
        | some q => { acc with score := clamp01 q }
        | none => acc
      | none => acc)
    base

/-- Model of `Output::parse` (checker.rs). -/
def Output.parse (s : List Nat) : Output :=
  Output.applyOverrides s (Output.parseBase s)

/-! ## checker.rs: `Client::check`

`check` builds one sandbox command and interprets the outcome
(checker.rs, lines 157–202): a transport error becomes `Error::Sandbox`; a
result with status `Accepted` **or** `NonZeroExitStatus` has its stderr
parsed as the verdict; every other status becomes `Error::Execute` via
`From<proto::Result>`. -/

/-- Sandbox result status (`proto::StatusType`). -/
inductive SandboxStatus
  | invalid
  | accepted
  | memoryLimitExceeded
  | timeLimitExceeded
  | outputLimitExceeded
  | fileError
  | nonZeroExitStatus
  | signalled
  | dangerousSyscall
  | internalError
deriving DecidableEq

/-- The parts of a `proto::Result` the checker inspects. -/
structure SandboxResult where
  status : SandboxStatus
  stderr : List Nat
  time : Nat
  memory : Nat
  exit_status : Int
deriving DecidableEq

/-- Outcome of the `exec` RPC: a transport error or a sandbox result. -/
inductive ExecOutcome
  | transport (msg : List Nat)
  | finished (res : SandboxResult)
deriving DecidableEq

/-- Model of `checker::Error`. -/
inductive CheckerError
  | execute (status : SandboxStatus) (time : Nat) (memory : Nat)
      (message : List Nat) (exit_code : Int)
  | sandbox (msg : List Nat)
deriving DecidableEq

/-- Model of the result interpretation of `Client::check`. -/
def check (outcome : ExecOutcome) : Except CheckerError Output :=
  match outcome with
  | .transport m => .error (.sandbox m)
  | .finished r =>
    match r.status with
    | .accepted => .ok (Output.parse r.stderr)
    | .nonZeroExitStatus => .ok (Output.parse r.stderr)
    | st => .error (.execute st r.time r.memory (limit_message r.stderr)
        r.exit_status)

/-! ## result.rs: statuses, `Record` and `Record::new` -/

/-- Model of `result::ExecuteStatus`. -/
inductive ExecuteStatus
  | accepted
  | timeLimitExceeded
  | memoryLimitExceeded
  | outputLimitExceeded
  | fileError
  | runtimeError
  | systemError
deriving DecidableEq

/-- Model of `From<proto::StatusType> for ExecuteStatus` (result.rs). -/
def executeStatusOfSandbox : SandboxStatus → ExecuteStatus
  | .invalid => .systemError
  | .accepted => .accepted
  | .memoryLimitExceeded => .memoryLimitExceeded
  | .timeLimitExceeded => .timeLimitExceeded
  | .outputLimitExceeded => .outputLimitExceeded
  | .fileError => .fileError
  | .nonZeroExitStatus => .runtimeError
  | .signalled => .runtimeError
  | .dangerousSyscall => .runtimeError
  | .internalError => .systemError

/-- Model of `result::RecordStatus`. -/
inductive RecordStatus
  | waiting
  | skipped
  | accepted
  | wrongAnswer
  | partiallyCorrect
  | presentationError
  | timeLimitExceeded
  | memoryLimitExceeded
  | outputLimitExceeded
  | fileError
  | runtimeError
  | systemError
deriving DecidableEq

/-- Model of `From<ExecuteStatus> for RecordStatus`. -/
def recordStatusOfExecute : ExecuteStatus → RecordStatus
  | .accepted => .accepted
  | .timeLimitExceeded => .timeLimitExceeded
  | .memoryLimitExceeded => .memoryLimitExceeded
  | .outputLimitExceeded => .outputLimitExceeded
  | .fileError => .fileError
  | .runtimeError => .runtimeError
  | .systemError => .systemError

/-- Model of `From<checker::Status> for RecordStatus`. -/
def recordStatusOfChecker : CheckerStatus → RecordStatus
  | .accepted => .accepted
  | .wrongAnswer => .wrongAnswer
  | .partiallyCorrect => .partiallyCorrect
  | .presentationError => .presentationError
  | .systemError => .systemError

/-- Model of `result::ExecuteResult`. -/
structure ExecuteResult where
  status : ExecuteStatus
  time : Nat
  memory : Nat
  stderr : List Nat
  exit_code : Int
deriving DecidableEq

/-- Model of `result::Record`.  `checker_message` is the field problem.rs refers to as
the record's message. -/
structure Record where
  status : RecordStatus
  time : Nat
  memory : Nat
  stderr : List Nat
  exit_code : Int
  score : ℚ
  checker_message : List Nat
deriving DecidableEq

/-- Model of `result::RECORD_SKIPPED`. -/
def RECORD_SKIPPED : Record :=
  { status := .skipped, time := 0, memory := 0, stderr := strChars "skipped",
    exit_code := -1, score := 0, checker_message := [] }

/-- Model of `Record::new` (result.rs lines 278–314), verbatim: with no
checker output, a non-accepted execution yields a `SystemError` record with
message `"error: no checker"`, while an accepted one keeps its (mapped)
execute status and score 0.  With a checker output, status and score come
from the checker. -/
def Record.new (result : ExecuteResult) (checker_output : Option Output) :
    Record :=
  match checker_output with
  | none =>
    if result.status ≠ ExecuteStatus.accepted then
      { status := .systemError, time := result.time, memory := result.memory,
        stderr := result.stderr, exit_code := result.exit_code, score := 0,
        checker_message := strChars "error: no checker" }
    else
      { status := recordStatusOfExecute result.status, time := result.time,
        memory := result.memory, stderr := result.stderr,
        exit_code := result.exit_code, score := 0, checker_message := [] }
  | some co =>
    { status := recordStatusOfChecker co.status, time := result.time,
      memory := result.memory, stderr := result.stderr,
      exit_code := result.exit_code, score := co.score,
      checker_message := co.message }

/-- Display text of `checker::Error` (thiserror).  `Sandbox` renders as the
constant `"sandbox error"`; the parenthesised status/time/memory detail of
the `Execute` rendering is omitted — no claim inspects it. -/
def checkerErrorText : CheckerError → List Nat
  | .execute _ _ _ _ _ => strChars "checker runs failed"
  | .sandbox _ => strChars "sandbox error"

/-- Model of the per-test record assembly in `Subtask::judge` (problem.rs
lines 133–173): if the user run produced no output file the record is
`Record::new(res, None)`; otherwise a checker success contributes its
verdict, and a checker failure yields `Record::new(res, None)` with the
message replaced by `"error: checker judgement failed: "` plus the error
text. -/
def combineTestRecord (res : ExecuteResult) (ouf_present : Bool)
    (checker_res : Except CheckerError Output) : Record :=
  if ouf_present = false then Record.new res none
  else
    match checker_res with
    | .ok c => Record.new res (some c)
    | .error err =>
      { Record.new res none with
        checker_message :=
          strChars "error: checker judgement failed: " ++ checkerErrorText err }

/-! ## problem.rs: subtask scheduling and score aggregation

`Problem::judge` (problem.rs lines 194–335) compiles solution and checker,
then runs one coroutine per subtask.  Subtask `i` folds `min` over its
dependency latches starting from `1f32`; if the result is `0` it publishes
`0` and returns one `RECORD_SKIPPED` clone per test, otherwise it runs
`Subtask::judge`, whose score is the fold of `min` over the record scores
starting from `f32::INFINITY`, publishes the `min` of both, and returns the
records.  Finally the terminal score is `Σ subtask.score × latch[i]`.

The per-test pipeline inside `Subtask::judge` (uploads, `judge_batch`, the
checker) is abstracted by an oracle `recs : Nat → List Record` giving the
records subtask `i` would collect if it runs; everything downstream of the
records is modelled faithfully.  The concurrent latch network is modelled by
computing subtasks in index order, which is the data flow whenever every
dependency index is smaller than its dependent (the `WfDeps` hypothesis
below); `f32::INFINITY` is `none`. -/

/-- Subtask data relevant to scheduling (problem.rs `Subtask`): weight,
dependency indices, and the number of tests. -/
structure Subtask where
  score : ℚ
  dependences : List Nat
  numTests : Nat

/-- Model of the dependency fold of `Problem::judge`:
`stream::iter(dep_score_rx).fold(1f32, |score, rx| score.min(*rx))`. -/
def depMin (pubs : List ℚ) (deps : List Nat) : ℚ :=
  deps.foldl (fun a d => min a (pubs.getD d 0)) 1

/-- Model of `records.iter().fold(f32::INFINITY, |a, b| a.min(b.score))`, with `none`
playing `f32::INFINITY`. -/
def minFoldInf (l : List ℚ) : Option ℚ :=
  l.foldl (fun a b => some (match a with | none => b | some x => min x b)) none

/-- Unscaled score returned by `Subtask::judge` (problem.rs line 187). -/
def Subtask.judgeScore (recs : List Record) : Option ℚ :=
  minFoldInf (recs.map Record.score)

/-- Model of `score.min(cur_score)` where `cur_score` may be `f32::INFINITY`. -/
def minWithInf (s : ℚ) : Option ℚ → ℚ
  | none => s
  | some q => min s q

/-- Body of the subtask coroutine (problem.rs lines 289–317): with `pubs` the
dependency latches already resolved, either publish `0` and emit one
`RECORD_SKIPPED` per test, or run the subtask and publish
`score.min(cur_score)`. -/
def judgeStep (recs : Nat → List Record) (pubs : List ℚ) (i : Nat)
    (sub : Subtask) : ℚ × List Record :=
  if depMin pubs sub.dependences = 0 then
    ((0 : ℚ), List.replicate sub.numTests RECORD_SKIPPED)
  else (minWithInf (depMin pubs sub.dependences) (Subtask.judgeScore (recs i)),
    recs i)

/-- One pass over the subtasks in index order: the published latch values
and the per-subtask record lists. -/
def judgeGo (recs : Nat → List Record) :
    List (Nat × Subtask) → List ℚ → List ℚ × List (List Record)
  | [], pubs => (pubs, [])
  | (i, sub) :: rest, pubs =>
    let out := judgeGo recs rest (pubs ++ [(judgeStep recs pubs i sub).1])
    (out.1, (judgeStep recs pubs i sub).2 :: out.2)

/-- Latch values published by `Problem::judge`. -/
def publishedScores (subs : List Subtask) (recs : Nat → List Record) :
    List ℚ :=
  (judgeGo recs subs.enum []).1

/-- Per-subtask record lists of the terminal `Finished` event. -/
def subtaskResults (subs : List Subtask) (recs : Nat → List Record) :
    List (List Record) :=
  (judgeGo recs subs.enum []).2

/-- The terminal score loop of `Problem::judge` (lines 322–325):
`sum_score += subtask.score * *score_rx[i].borrow()`. -/
def finishedScore (subs : List Subtask) (recs : Nat → List Record) : ℚ :=
  (subs.enum).foldl
    (fun a p => a + p.2.score * (publishedScores subs recs).getD p.1 0) 0

/-- Every dependency index points at an earlier subtask; under this
discipline the concurrent latch network resolves in index order. -/
def WfDeps (subs : List Subtask) : Prop :=
  ∀ i (h : i < subs.length), ∀ d ∈ (subs.get ⟨i, h⟩).dependences, d < i

/-- Transitive closure of the subtask dependency relation: `j` is a (direct
or indirect) dependency of `i`. -/
inductive InDepClosure (subs : List Subtask) : Nat → Nat → Prop
  | direct {i j : Nat} (hi : i < subs.length)
      (hj : j ∈ (subs.get ⟨i, hi⟩).dependences) : InDepClosure subs i j
  | step {i d j : Nat} (hi : i < subs.length)
      (hd : d ∈ (subs.get ⟨i, hi⟩).dependences)
      (h : InDepClosure subs d j) : InDepClosure subs i j

/-- Modelled from the claim words of C4 (not from the source): "the published
unscaled score is the minimum of the subtask's per-test record scores further
clamped by the minimum of its dependency scores", both minima folded from
`+∞` (`none`). -/
def claimPublishedScore (recScores : List ℚ) (depScores : List ℚ) :
    Option ℚ :=
  match minFoldInf recScores, minFoldInf depScores with
  | none, b => b
  | some a, none => some a
  | some a, some b => some (min a b)

/-! ## workflow.rs: `Workflow::parse` and `Workflow::exec`

The four `Cmd` variants each consume the *keys* of their `copy_in` map plus
their code/exec/inf names (`get_copy_in`) and produce exactly one output
name (`get_copy_out` is a singleton set in all four impls).

`parse` (workflow.rs lines 40–126) registers, in task order, each task's
output: an output equal to a global `copy_in` name is a
`DuplicateFile::CopyIn` error, an output already provided is a
`DuplicateFile::Prev { index1, index2, name }` error.  It then requires
every task input to be a global `copy_in` or some task's output
(`InvalidFile::Target`), and every global `copy_out` to be some task's
output (`InvalidFile::Global`; a global `copy_in` name does *not* qualify).
Rust iterates a `HashSet` over each task's inputs in unspecified order;
only the choice among several `InvalidFile` errors of one task depends on
it, which no claim touches — the model uses list order.

`exec` (lines 128–202) uploads the global `copy_in` files, runs the tasks
(concurrently in Rust; the model schedules, one at a time, the first task
whose inputs are all available, which realises the same data flow), and on
the first task failure returns the error immediately — without any cleanup.
Only on success does it read back all file ids, delete every file not named
in the global `copy_out`, and return the id map.  Sandbox file ids are
modelled as consecutive naturals; a task failure is injected by the
`oracle`; uploads are assumed to succeed (an upload transport error aborts
`exec` just like a task failure, creating the same leak). -/

/-- The four task variants (`CompileCmd`, `GenerateCmd`, `ValidateCmd`,
`JudgeBatchCmd`).  `copy_in` maps a sandbox-side filename to a workflow
file name; the language and argv fields play no role in file routing. -/
inductive Cmd
  | compile (lang : String) (args : List String) (code : String)
      (copy_in : List (String × String)) (exec : String)
  | generate (lang : String) (args : List String) (exec : String)
      (copy_in : List (String × String)) (generated : String)
  | validate (lang : String) (args : List String) (exec : String)
      (inf : String) (copy_in : List (String × String)) (report : String)
  | judgeBatch (lang : String) (args : List String) (exec : String)
      (inf : String) (copy_in : List (String × String)) (copy_out : String)
      (time_limit : Nat) (memory_limit : Nat)
deriving DecidableEq

/-- Model of `Cmd::get_copy_in`: the `copy_in` keys plus the variant's own inputs. -/
def Cmd.get_copy_in : Cmd → List String
  | .compile _ _ code ci _ => ci.map Prod.fst ++ [code]
  | .generate _ _ exec ci _ => ci.map Prod.fst ++ [exec]
  | .validate _ _ exec inf ci _ => ci.map Prod.fst ++ [exec, inf]
  | .judgeBatch _ _ exec inf ci _ _ _ => ci.map Prod.fst ++ [exec, inf]

/-- Model of `Cmd::get_copy_out`: the single output name of each variant. -/
def Cmd.get_copy_out : Cmd → String
  | .compile _ _ _ _ exec => exec
  | .generate _ _ _ _ generated => generated
  | .validate _ _ _ _ _ report => report
  | .judgeBatch _ _ _ _ _ co _ _ => co

/-- Model of `workflow::Workflow`, keeping the names that drive parsing and routing:
the global `copy_in` keys, the task list, and the `copy_out` set. -/
structure Workflow where
  copy_in : List String
  tasks : List Cmd
  copy_out : List String
deriving DecidableEq

/-- Model of `workflow::InvalidFileError`. -/
inductive InvalidFileError
  | target (index : Nat) (name : String)
  | global (name : String)
deriving DecidableEq

/-- Model of `workflow::DuplicateFileError`. -/
inductive DuplicateFileError
  | copyIn (index : Nat) (name : String)
  | prev (index1 : Nat) (index2 : Nat) (name : String)
deriving DecidableEq

/-- Model of `workflow::ParseError`. -/
inductive ParseError
  | invalidFile (e : InvalidFileError)
  | duplicateFile (e : DuplicateFileError)
deriving DecidableEq

instance exceptDecEq {ε α : Type} [DecidableEq ε] [DecidableEq α] :
    DecidableEq (Except ε α) := fun x y =>
  match x, y with
  | .ok a, .ok b =>
    if h : a = b then isTrue (by rw [h])
    else isFalse (by intro hh; cases hh; exact h rfl)
  | .error a, .error b =>
    if h : a = b then isTrue (by rw [h])
    else isFalse (by intro hh; cases hh; exact h rfl)
  | .ok _, .error _ => isFalse (by intro hh; cases hh)
  | .error _, .ok _ => isFalse (by intro hh; cases hh)

/-- First loop of `parse`: record the producing task of each output name,
rejecting clashes with the global `copy_in` and with earlier tasks. -/
def registerOutputs (copyIn : List String) :
    List Cmd → Nat → List (String × Nat) →
      Except ParseError (List (String × Nat))
  | [], _, acc => .ok acc
  | c :: cs, i, acc =>
    let ouf := c.get_copy_out
    if ouf ∈ copyIn then .error (.duplicateFile (.copyIn i ouf))
    else
      match List.lookup ouf acc with
      | some prev => .error (.duplicateFile (.prev prev i ouf))
      | none => registerOutputs copyIn cs (i + 1) (acc ++ [(ouf, i)])

/-- A task input that is neither a global `copy_in` nor a task output. -/
def unresolvedInput (copyIn : List String) (keys : List String)
    (f : String) : Bool :=
  !(copyIn.contains f || keys.contains f)

/-- Second loop of `parse`: every task input must be resolvable. -/
def checkInputs (copyIn : List String) (providers : List (String × Nat)) :
    List Cmd → Nat → Except ParseError Unit
  | [], _ => .ok ()
  | c :: cs, i =>
    match c.get_copy_in.find?
        (unresolvedInput copyIn (providers.map Prod.fst)) with
    | some f => .error (.invalidFile (.target i f))
    | none => checkInputs copyIn providers cs (i + 1)

/-- Third loop of `parse`: every global `copy_out` must be a task output. -/
def checkGlobalOut (providers : List (String × Nat)) :
    List String → Except ParseError Unit
  | [] => .ok ()
  | f :: fs =>
    if (providers.map Prod.fst).contains f then checkGlobalOut providers fs
    else .error (.invalidFile (.global f))

/-- Model of `Workflow::parse`, returning the provider map. -/
def Workflow.parse (w : Workflow) : Except ParseError (List (String × Nat)) :=
  match registerOutputs w.copy_in w.tasks 0 [] with
  | .error e => .error e
  | .ok providers =>
    match checkInputs w.copy_in providers w.tasks 0 with
    | .error e => .error e
    | .ok _ =>
      match checkGlobalOut providers w.copy_out with
      | .error e => .error e
      | .ok _ => .ok providers

/-- Number of producers of a file name: one for a global `copy_in` entry,
plus one per task that outputs it. -/
def producersCount (w : Workflow) (name : String) : Nat :=
  (if name ∈ w.copy_in then 1 else 0) +
    (w.tasks.filter (fun c => c.get_copy_out == name)).length

/-- Sandbox-side state of the modelled execution: which name resolved to
which file id, the ids created so far, and the next fresh id. -/
structure ExecSt where
  env : List (String × Nat)
  created : List Nat
  nextId : Nat
deriving DecidableEq

/-- Upload the global `copy_in` files (`sandbox.file_add` per entry). -/
def uploadCopyIn : List String → ExecSt → ExecSt
  | [], st => st
  | name :: rest, st =>
    uploadCopyIn rest
      { env := st.env ++ [(name, st.nextId)],
        created := st.created ++ [st.nextId], nextId := st.nextId + 1 }

/-- A task can start once all its declared inputs have been published. -/
def readyTask (env : List (String × Nat)) (c : Cmd) : Bool :=
  c.get_copy_in.all (fun f => (env.map Prod.fst).contains f)

/-- First ready task of the pending list, and the list without it. -/
def findReady (env : List (String × Nat)) :
    List (Nat × Cmd) → Option ((Nat × Cmd) × List (Nat × Cmd))
  | [] => none
  | t :: rest =>
    if readyTask env t.2 then some (t, rest)
    else
      match findReady env rest with
      | some (u, rest') => some (u, t :: rest')
      | none => none

/-- Run one task: its primitive produces one cached sandbox file, published
under the task's output name. -/
def runTask (st : ExecSt) (c : Cmd) : ExecSt :=
  { env := st.env ++ [(c.get_copy_out, st.nextId)],
    created := st.created ++ [st.nextId], nextId := st.nextId + 1 }

/-- Verdict of the scheduling loop. -/
inductive SchedOut
  | done
  | failed (index : Nat)
  | stuck
deriving DecidableEq

/-- Cooperative scheduling of the pending tasks: pick a ready task, run it
if its primitive succeeds (`oracle`), stop at the first failure (the engine
stops scheduling and pending tasks are cancelled).  `stuck` marks a
dependency cycle: the real engine would await forever. -/
def schedule (oracle : Nat → Bool) :
    Nat → List (Nat × Cmd) → ExecSt → SchedOut × ExecSt
  | _, [], st => (.done, st)
  | 0, _ :: _, st => (.stuck, st)
  | fuel + 1, rem, st =>
    match findReady st.env rem with
    | none => (.stuck, st)
    | some ((i, c), rest) =>
      if oracle i then schedule oracle fuel rest (runTask st c)
      else (.failed i, st)

/-- Terminal outcome of a workflow execution. -/
inductive WorkflowOutcome
  | parseErr (e : ParseError)
  | taskErr (index : Nat)
  | hang
  | ok (res : List (String × Nat))
deriving DecidableEq

/-- Model of `Workflow::exec`: parse, upload the global `copy_in`, run the
tasks, and — only when every task succeeded — read back all ids, delete
every file whose name is not in the global `copy_out`, and return the id
map.  The triple is (outcome, ids created, ids deleted). -/
def Workflow.exec (w : Workflow) (oracle : Nat → Bool) :
    WorkflowOutcome × List Nat × List Nat :=
  match w.parse with
  | .error e => (.parseErr e, [], [])
  | .ok _ =>
    let st0 := uploadCopyIn w.copy_in ⟨[], [], 0⟩
    match schedule oracle w.tasks.length w.tasks.enum st0 with
    | (.done, st) =>
      let cleanNames :=
        w.copy_in.filter (fun f => !(w.copy_out.contains f)) ++
          (w.tasks.map Cmd.get_copy_out).filter
            (fun f => !(w.copy_out.contains f))
      (.ok st.env, st.created,
        cleanNames.filterMap (fun f => List.lookup f st.env))
    | (.failed i, st) => (.taskErr i, st.created, [])
    | (.stuck, st) => (.hang, st.created, [])


/-! ## Theorems -/

theorem utf8Len_pos (c : Nat) : 0 < utf8Len c := by
  unfold utf8Len; split <;> [skip; split] <;> [skip; skip; split] <;> norm_num

theorem utf8Len_le_four (c : Nat) : utf8Len c ≤ 4 := by
  unfold utf8Len; split <;> [skip; split] <;> [skip; skip; split] <;> norm_num

theorem strBytes_nil : strBytes [] = 0 := rfl

theorem strBytes_cons (c : Nat) (cs : List Nat) :
    strBytes (c :: cs) = utf8Len c + strBytes cs := by
  simp [strBytes]

theorem strBytes_append (a b : List Nat) :
    strBytes (a ++ b) = strBytes a + strBytes b := by
  simp [strBytes]

/-- Unfolding equation: strings within the limit come back verbatim. -/
theorem limit_message_of_le (s : List Nat) (h : strBytes s ≤ 1024) :
    limit_message s = s := by
  unfold limit_message
  rw [if_pos h]

/-- Unfolding equation: over-long strings are cut and dotted. -/
theorem limit_message_of_gt (s : List Nat) (h : ¬ strBytes s ≤ 1024) :
    limit_message s = lossyTake 1021 s ++ [46, 46, 46] := by
  unfold limit_message
  rw [if_neg h]

/-- Taking bytes past a fully contained prefix `p` descends into the rest. -/
theorem lossyTake_append (p : List Nat) (n : Nat) (rest : List Nat)
    (h : strBytes p ≤ n) :
    lossyTake n (p ++ rest) = p ++ lossyTake (n - strBytes p) rest := by
  induction p generalizing n with
  | nil => simp [strBytes_nil]
  | cons c p ih =>
    rw [strBytes_cons] at h
    have hc : utf8Len c ≤ n := le_trans (Nat.le_add_right _ _) h
    have hp : strBytes p ≤ n - utf8Len c := by omega
    have hsub : n - (utf8Len c + strBytes p) = n - utf8Len c - strBytes p := by
      omega
    simp only [List.cons_append, List.append_eq, lossyTake, if_pos hc,
      strBytes_cons, hsub]
    rw [ih _ hp]

/-- The result of `lossyTake n` either fits in `n` bytes, or ends in one
U+FFFD after a prefix that left a 1–3 byte budget. -/
theorem lossyTake_cases (s : List Nat) (n : Nat) :
    strBytes (lossyTake n s) ≤ n ∨
      ∃ p, lossyTake n s = p ++ [0xFFFD] ∧
        strBytes p + 1 ≤ n ∧ n ≤ strBytes p + 3 := by
  induction s generalizing n with
  | nil => left; simp [lossyTake, strBytes_nil]
  | cons c cs ih =>
    by_cases hc : utf8Len c ≤ n
    · rcases ih (n - utf8Len c) with h | ⟨p, hp, h1, h2⟩
      · left
        simp only [lossyTake, if_pos hc, strBytes_cons]
        omega
      · right
        refine ⟨c :: p, ?_, ?_, ?_⟩
        · simp [lossyTake, if_pos hc, hp]
        · rw [strBytes_cons]; omega
        · rw [strBytes_cons]; omega
    · by_cases h0 : n = 0
      · left
        subst h0
        have hcp : utf8Len c ≠ 0 := Nat.pos_iff_ne_zero.mp (utf8Len_pos c)
        simp [lossyTake, Nat.le_zero, hcp, strBytes_nil]
      · right
        refine ⟨[], ?_, ?_, ?_⟩
        · simp [lossyTake, hc, h0]
        · simp only [strBytes_nil]; omega
        · have := utf8Len_le_four c
          simp only [strBytes_nil]; omega

/-- C8: `limit_message` is idempotent.  Proved for every character sequence.
Note the truncated result can exceed 1024 bytes (prefix up to 1021 bytes may
end in a 3-byte U+FFFD, plus 3 dots), but reapplying the limit reproduces the
same prefix, U+FFFD and dots. -/
theorem limit_message_idem (s : List Nat) :
    limit_message (limit_message s) = limit_message s := by
  by_cases hb : strBytes (limit_message s) ≤ 1024
  · exact limit_message_of_le _ hb
  · by_cases hs : strBytes s ≤ 1024
    · exact absurd (by rw [limit_message_of_le s hs]; exact hs) hb
    · have hlm : limit_message s = lossyTake 1021 s ++ [46, 46, 46] :=
        limit_message_of_gt s hs
      rcases lossyTake_cases s 1021 with h | ⟨p, hp, h1, h2⟩
      · exact absurd (by
          rw [hlm, strBytes_append]
          have h3 : strBytes [46, 46, 46] = 3 := rfl
          omega) hb
      · have hpb : strBytes p ≤ 1020 := by omega
        have hlo : 1019 ≤ strBytes p := by
          rw [hlm, hp, strBytes_append, strBytes_append] at hb
          have h3 : strBytes [46, 46, 46] = 3 := rfl
          have hf : strBytes [0xFFFD] = 3 := rfl
          omega
        rw [limit_message_of_gt _ hb, hlm, hp, List.append_assoc,
          lossyTake_append p _ _ (le_trans hpb (by norm_num))]
        have hdecode : lossyTake (1021 - strBytes p) ([0xFFFD] ++ [46, 46, 46]) =
            [0xFFFD] := by
          have hbud1 : 1 ≤ 1021 - strBytes p := by omega
          have hbud2 : 1021 - strBytes p ≤ 2 := by omega
          have hfl : utf8Len 0xFFFD = 3 := rfl
          simp only [List.cons_append, List.nil_append, lossyTake, hfl]
          rw [if_neg (by omega), if_neg (by omega)]
        rw [hdecode, List.append_assoc]

theorem strBytes_boundaryTake_le (n : Nat) (s : List Nat) :
    strBytes (boundaryTake n s) ≤ n := by
  induction s generalizing n with
  | nil => simp [boundaryTake, strBytes_nil]
  | cons c cs ih =>
    by_cases hc : utf8Len c ≤ n
    · simp only [boundaryTake, if_pos hc, strBytes_cons]
      have := ih (n - utf8Len c)
      omega
    · simp [boundaryTake, hc, strBytes_nil]

/-- Lemma: `lossyTake` is the boundary prefix, plus one U+FFFD exactly when the byte
cut fell strictly inside a character. -/
theorem lossyTake_eq_boundaryTake (s : List Nat) (n : Nat) :
    lossyTake n s = boundaryTake n s ++
      (if strBytes (boundaryTake n s) < n ∧ boundaryTake n s ≠ s
        then [0xFFFD] else []) := by
  induction s generalizing n with
  | nil => simp [lossyTake, boundaryTake]
  | cons c cs ih =>
    by_cases hc : utf8Len c ≤ n
    · simp only [lossyTake, boundaryTake, if_pos hc, ih (n - utf8Len c),
        List.cons_append, strBytes_cons]
      have h2 : utf8Len c + strBytes (boundaryTake (n - utf8Len c) cs) < n ↔
          strBytes (boundaryTake (n - utf8Len c) cs) < n - utf8Len c := by
        omega
      have h3 : c :: boundaryTake (n - utf8Len c) cs ≠ c :: cs ↔
          boundaryTake (n - utf8Len c) cs ≠ cs := by
        simp
      rw [if_congr (and_congr h2 h3) rfl rfl]
    · by_cases h0 : n = 0
      · subst h0
        have hcp : utf8Len c ≠ 0 := Nat.pos_iff_ne_zero.mp (utf8Len_pos c)
        simp [lossyTake, boundaryTake, Nat.le_zero, hcp, strBytes_nil]
      · have hne : ([] : List Nat) ≠ c :: cs := by simp
        simp only [lossyTake, boundaryTake, if_neg hc, if_neg h0]
        rw [if_pos ⟨by simpa [strBytes_nil] using Nat.pos_of_ne_zero h0, hne⟩]
        simp

set_option maxRecDepth 8000 in
/-- C7 counterexample: on a 1025-byte ASCII string the source truncates to
1021 bytes and appends `"..."` (three ASCII dots), while the claim demands a
1024-byte boundary prefix followed by U+2026. -/
theorem limit_message_c7_counterexample :
    limit_message (List.replicate 1025 97) ≠
      limitMessageSpec (List.replicate 1025 97) := by
  decide

/-- C7 amended: `limit_message` keeps strings of at most 1024 bytes intact;
a longer string is cut after its first 1021 bytes — the characters wholly
inside those bytes, plus one U+FFFD when the cut splits a character — and the
three ASCII characters `"..."` are appended. -/
theorem limit_message_amended (s : List Nat) :
    limit_message s =
      if strBytes s ≤ 1024 then s
      else boundaryTake 1021 s ++
        (if strBytes (boundaryTake 1021 s) < 1021 then [0xFFFD] else []) ++
        [46, 46, 46] := by
  by_cases hs : strBytes s ≤ 1024
  · rw [if_pos hs]
    exact limit_message_of_le s hs
  · rw [if_neg hs, limit_message_of_gt s hs, lossyTake_eq_boundaryTake s 1021]
    have hne : boundaryTake 1021 s ≠ s := by
      intro h
      have := strBytes_boundaryTake_le 1021 s
      rw [h] at this
      omega
    by_cases hlt : strBytes (boundaryTake 1021 s) < 1021
    · rw [if_pos (⟨hlt, hne⟩ :
        strBytes (boundaryTake 1021 s) < 1021 ∧ boundaryTake 1021 s ≠ s),
        if_pos hlt, List.append_assoc]
    · rw [if_neg (fun h : _ ∧ _ => hlt h.1), if_neg hlt, List.append_assoc]

/-- C1, code side: on the claim's own example `"status(accepted)\nscore(0.1)"`
the parser returns score `0`, not `0.1` — the `score\((\w+)\)` pattern cannot
match `0.1` because `.` is not a word character, so the override is silently
skipped.  The crate's own unit test (test/checker.rs) expects `0.1` here, so
this is a bug in the code, not in the claim. -/
theorem output_parse_c1_code_bug :
    Output.parse (strChars "status(accepted)\nscore(0.1)") =
      { status := .accepted, score := 0,
        message := strChars "status(accepted)\nscore(0.1)" } ∧
      (0 : ℚ) ≠ 1 / 10 := by
  constructor
  · decide
  · norm_num

/-- C9: `check` treats `NonZeroExitStatus` exactly like `Accepted` — both
parse stderr into a verdict and return `Ok` — while every other sandbox
status becomes an `Execute` error and a transport failure becomes a
`Sandbox` error. -/
theorem check_c9 (r : SandboxResult) (m : List Nat) :
    ((r.status = .accepted ∨ r.status = .nonZeroExitStatus) →
      check (.finished r) = .ok (Output.parse r.stderr)) ∧
    (r.status ≠ .accepted → r.status ≠ .nonZeroExitStatus →
      check (.finished r) = .error (.execute r.status r.time r.memory
        (limit_message r.stderr) r.exit_status)) ∧
    check (.transport m) = .error (.sandbox m) := by
  obtain ⟨st, stderr, t, mem, ec⟩ := r
  refine ⟨?_, ?_, rfl⟩
  · rintro (h | h) <;> subst h <;> rfl
  · intro h1 h2
    cases st <;> first | rfl | exact absurd rfl h1 | exact absurd rfl h2

/-- Witness for C9 at concrete outcomes. -/
theorem check_c9_witness :
    check (.finished ⟨.nonZeroExitStatus, strChars "wrong answer x", 5, 6, 1⟩) =
      .ok (Output.parse (strChars "wrong answer x")) ∧
    check (.finished ⟨.timeLimitExceeded, [], 5, 6, 1⟩) =
      .error (.execute .timeLimitExceeded 5 6 (limit_message []) 1) ∧
    check (.transport (strChars "boom")) = .error (.sandbox (strChars "boom")) :=
  ⟨(check_c9 ⟨.nonZeroExitStatus, strChars "wrong answer x", 5, 6, 1⟩
      (strChars "boom")).1 (Or.inr rfl),
   (check_c9 ⟨.timeLimitExceeded, [], 5, 6, 1⟩ (strChars "boom")).2.1
      (by decide) (by decide),
   (check_c9 ⟨.timeLimitExceeded, [], 5, 6, 1⟩ (strChars "boom")).2.2⟩

/-- C2, code side: for a test whose solution run is `Accepted` and whose
checker call fails with a sandbox transport error, the emitted record has
status `Accepted` (with score 0), not `SystemError` as the claim and the
spec require.  `Record::new`'s no-checker branch has its condition inverted:
the `SystemError` + `"error: no checker"` arm fires for non-accepted runs
and the accepted-status arm for accepted ones. -/
theorem record_c2_code_bug :
    combineTestRecord ⟨.accepted, 3, 4, [], 0⟩ true
        (.error (.sandbox (strChars "transport failure"))) =
      { status := .accepted, time := 3, memory := 4, stderr := [],
        exit_code := 0, score := 0,
        checker_message :=
          strChars "error: checker judgement failed: sandbox error" } ∧
    RecordStatus.accepted ≠ RecordStatus.systemError := by
  exact ⟨by decide, by decide⟩

theorem depMin_congr (P1 P2 : List ℚ) (deps : List Nat)
    (h : ∀ d ∈ deps, P1.getD d 0 = P2.getD d 0) :
    depMin P1 deps = depMin P2 deps := by
  have H : ∀ (ds : List Nat) (a : ℚ), (∀ d ∈ ds, P1.getD d 0 = P2.getD d 0) →
      ds.foldl (fun x d => min x (P1.getD d 0)) a =
        ds.foldl (fun x d => min x (P2.getD d 0)) a := by
    intro ds
    induction ds with
    | nil => intro a _; rfl
    | cons d ds ih =>
      intro a hds
      simp only [List.foldl_cons, hds d (List.mem_cons_self d ds)]
      exact ih _ (fun x hx => hds x (List.mem_cons_of_mem d hx))
  exact H deps 1 h

theorem foldl_min_le_init (f : Nat → ℚ) (deps : List Nat) (a : ℚ) :
    deps.foldl (fun x d => min x (f d)) a ≤ a := by
  induction deps generalizing a with
  | nil => exact le_refl a
  | cons d ds ih =>
    exact le_trans (ih (min a (f d))) (min_le_left _ _)

theorem foldl_min_le_mem (f : Nat → ℚ) (deps : List Nat) :
    ∀ (a : ℚ) (d : Nat), d ∈ deps →
      deps.foldl (fun x e => min x (f e)) a ≤ f d := by
  induction deps with
  | nil => intro a d hd; cases hd
  | cons e es ih =>
    intro a d hd
    rcases List.mem_cons.mp hd with h | h
    · subst h
      exact le_trans (foldl_min_le_init f es _) (min_le_right _ _)
    · exact ih _ d h

theorem foldl_min_init_or_mem (f : Nat → ℚ) (deps : List Nat) :
    ∀ a : ℚ, deps.foldl (fun x e => min x (f e)) a = a ∨
      ∃ d ∈ deps, deps.foldl (fun x e => min x (f e)) a = f d := by
  induction deps with
  | nil => intro a; exact Or.inl rfl
  | cons e es ih =>
    intro a
    rcases ih (min a (f e)) with h | ⟨d, hd, h⟩
    · simp only [List.foldl_cons, h]
      rcases min_cases a (f e) with ⟨h1, _⟩ | ⟨h1, _⟩
      · exact Or.inl h1
      · exact Or.inr ⟨e, List.mem_cons_self e es, h1⟩
    · exact Or.inr ⟨d, List.mem_cons_of_mem e hd, by simpa using h⟩

theorem depMin_nonneg (P : List ℚ) (deps : List Nat)
    (h : ∀ d ∈ deps, 0 ≤ P.getD d 0) : 0 ≤ depMin P deps := by
  unfold depMin
  rcases foldl_min_init_or_mem (fun d => P.getD d 0) deps 1 with heq | ⟨d, hd, heq⟩
  · rw [heq]; norm_num
  · rw [heq]; exact h d hd

theorem depMin_le_one (P : List ℚ) (deps : List Nat) : depMin P deps ≤ 1 :=
  foldl_min_le_init _ deps 1

theorem minFoldInf_nonneg (l : List ℚ) (h : ∀ x ∈ l, 0 ≤ x) (q : ℚ)
    (hq : minFoldInf l = some q) : 0 ≤ q := by
  unfold minFoldInf at hq
  suffices H : ∀ (m : List ℚ) (a : Option ℚ), (∀ x ∈ m, 0 ≤ x) →
      (∀ y, a = some y → 0 ≤ y) →
      ∀ r, m.foldl (fun a b => some (match a with | none => b | some x => min x b))
        a = some r → 0 ≤ r by
    exact H l none h (fun y hy => by cases hy) q hq
  intro m
  induction m with
  | nil =>
    intro a _ ha r hr
    exact ha r (by simpa using hr)
  | cons x xs ih =>
    intro a hm ha r hr
    rw [List.foldl_cons] at hr
    refine ih _ (fun z hz => hm z (List.mem_cons_of_mem x hz)) ?_ r hr
    intro y hy
    have hx := hm x (List.mem_cons_self x xs)
    cases a with
    | none =>
      have hxy : x = y := by simpa using hy
      exact hxy ▸ hx
    | some z =>
      have hxy : min z x = y := by simpa using hy
      exact hxy ▸ le_min (ha z rfl) hx

theorem judgeGo_fst_length (recs : Nat → List Record)
    (l : List (Nat × Subtask)) (pubs : List ℚ) :
    (judgeGo recs l pubs).1.length = pubs.length + l.length := by
  induction l generalizing pubs with
  | nil => simp [judgeGo]
  | cons p rest ih =>
    obtain ⟨i, sub⟩ := p
    simp only [judgeGo]
    rw [ih]
    simp
    omega

theorem judgeGo_fst_append (recs : Nat → List Record)
    (l : List (Nat × Subtask)) (pubs : List ℚ) :
    ∃ q, (judgeGo recs l pubs).1 = pubs ++ q := by
  induction l generalizing pubs with
  | nil => exact ⟨[], by simp [judgeGo]⟩
  | cons p rest ih =>
    obtain ⟨i, sub⟩ := p
    simp only [judgeGo]
    obtain ⟨q, hq⟩ := ih (pubs ++ [(judgeStep recs pubs i sub).1])
    rw [List.append_assoc] at hq
    exact ⟨_, hq⟩

theorem judgeGo_snd_length (recs : Nat → List Record)
    (l : List (Nat × Subtask)) (pubs : List ℚ) :
    (judgeGo recs l pubs).2.length = l.length := by
  induction l generalizing pubs with
  | nil => simp [judgeGo]
  | cons p rest ih =>
    obtain ⟨i, sub⟩ := p
    simp only [judgeGo, List.length_cons, ih]

/-- Characterization of the values the subtask pass publishes and emits: with
all dependency indices of item `j` pointing below slot `k + j`, position
`k + j` of the final latch list and position `j` of the emitted record lists
follow the skip-or-judge rule, with `depMin` read off the final latch list. -/
theorem judgeGo_getD (recs : Nat → List Record) :
    ∀ (tail : List Subtask) (k : Nat) (pubs : List ℚ), pubs.length = k →
    ∀ (j : Nat) (hj : j < tail.length),
    (∀ d ∈ (tail.get ⟨j, hj⟩).dependences, d < k + j) →
    (judgeGo recs (List.enumFrom k tail) pubs).1.getD (k + j) 0 =
      (if depMin (judgeGo recs (List.enumFrom k tail) pubs).1
          (tail.get ⟨j, hj⟩).dependences = 0 then 0
       else minWithInf (depMin (judgeGo recs (List.enumFrom k tail) pubs).1
          (tail.get ⟨j, hj⟩).dependences) (Subtask.judgeScore (recs (k + j)))) ∧
    (judgeGo recs (List.enumFrom k tail) pubs).2.getD j [] =
      (if depMin (judgeGo recs (List.enumFrom k tail) pubs).1
          (tail.get ⟨j, hj⟩).dependences = 0
       then List.replicate (tail.get ⟨j, hj⟩).numTests RECORD_SKIPPED
       else recs (k + j)) := by
  intro tail
  induction tail with
  | nil =>
    intro k pubs _ j hj
    exact absurd hj (by simp)
  | cons sub tl ih =>
    intro k pubs hp j hj hdeps
    have henum : List.enumFrom k (sub :: tl) =
        (k, sub) :: List.enumFrom (k + 1) tl := rfl
    rw [henum]
    simp only [judgeGo]
    cases j with
    | zero =>
      simp only [List.get] at hdeps ⊢
      obtain ⟨q, hq⟩ :=
        judgeGo_fst_append recs (List.enumFrom (k + 1) tl)
          (pubs ++ [(judgeStep recs pubs k sub).1])
      have hcongr : depMin
          (judgeGo recs (List.enumFrom (k + 1) tl)
            (pubs ++ [(judgeStep recs pubs k sub).1])).1 sub.dependences =
          depMin pubs sub.dependences := by
        apply depMin_congr
        intro d hd
        have hdk : d < pubs.length := by
          rw [hp]
          simpa using hdeps d hd
        rw [hq, List.append_assoc, List.getD_append _ _ _ _ hdk]
      have hget : (judgeGo recs (List.enumFrom (k + 1) tl)
          (pubs ++ [(judgeStep recs pubs k sub).1])).1.getD (k + 0) 0 =
          (judgeStep recs pubs k sub).1 := by
        rw [hq, List.append_assoc,
          List.getD_append_right _ _ _ _ (by omega : pubs.length ≤ k + 0)]
        have : k + 0 - pubs.length = 0 := by omega
        rw [this]
        rfl
      constructor
      · rw [hget, hcongr]
        unfold judgeStep
        split <;> rfl
      · rw [List.getD_cons_zero, hcongr]
        show (judgeStep recs pubs k sub).2 = _
        unfold judgeStep
        split <;> rfl
    | succ j =>
      have hj' : j < tl.length := by simpa using hj
      have harith : k + (j + 1) = (k + 1) + j := by omega
      have hget : (sub :: tl).get ⟨j + 1, hj⟩ = tl.get ⟨j, hj'⟩ := rfl
      rw [hget] at hdeps ⊢
      rw [harith] at hdeps ⊢
      have := ih (k + 1) (pubs ++ [(judgeStep recs pubs k sub).1])
        (by simp [hp]) j hj' hdeps
      exact ⟨this.1, by rw [List.getD_cons_succ]; exact this.2⟩

/-- The published latch list has one entry per subtask. -/
theorem publishedScores_length (subs : List Subtask)
    (recs : Nat → List Record) :
    (publishedScores subs recs).length = subs.length := by
  unfold publishedScores
  rw [judgeGo_fst_length]
  simp [List.enum]

/-- The terminal event carries one record list per subtask. -/
theorem subtaskResults_length (subs : List Subtask)
    (recs : Nat → List Record) :
    (subtaskResults subs recs).length = subs.length := by
  unfold subtaskResults
  rw [judgeGo_snd_length]
  simp [List.enum]

/-- Published latch value of subtask `i`: `0` on the skip path, otherwise the
dependency fold `min`-ed with the subtask score. -/
theorem publishedScores_getD (subs : List Subtask) (recs : Nat → List Record)
    (hwf : WfDeps subs) (i : Nat) (hi : i < subs.length) :
    (publishedScores subs recs).getD i 0 =
      if depMin (publishedScores subs recs)
          (subs.get ⟨i, hi⟩).dependences = 0 then 0
      else minWithInf (depMin (publishedScores subs recs)
          (subs.get ⟨i, hi⟩).dependences) (Subtask.judgeScore (recs i)) := by
  have h := judgeGo_getD recs subs 0 [] rfl i hi
    (by simpa using hwf i hi)
  simpa [publishedScores, List.enum] using h.1

/-- Record list of subtask `i` in the terminal event. -/
theorem subtaskResults_getD (subs : List Subtask) (recs : Nat → List Record)
    (hwf : WfDeps subs) (i : Nat) (hi : i < subs.length) :
    (subtaskResults subs recs).getD i [] =
      if depMin (publishedScores subs recs)
          (subs.get ⟨i, hi⟩).dependences = 0
      then List.replicate (subs.get ⟨i, hi⟩).numTests RECORD_SKIPPED
      else recs i := by
  have h := judgeGo_getD recs subs 0 [] rfl i hi
    (by simpa using hwf i hi)
  simpa [publishedScores, subtaskResults, List.enum] using h.2

/-- Published scores are nonnegative, given that the judged record scores
are (checker scores always are: they come from a `[0,1]` parse or are 0). -/
theorem publishedScores_nonneg (subs : List Subtask) (recs : Nat → List Record)
    (hwf : WfDeps subs) (hscores : ∀ i, ∀ r ∈ recs i, 0 ≤ r.score) :
    ∀ i, 0 ≤ (publishedScores subs recs).getD i 0 := by
  intro i
  induction i using Nat.strong_induction_on with
  | _ i ih =>
    by_cases hi : i < subs.length
    · rw [publishedScores_getD subs recs hwf i hi]
      split
      · exact le_refl 0
      · have hs : 0 ≤ depMin (publishedScores subs recs)
            (subs.get ⟨i, hi⟩).dependences :=
          depMin_nonneg _ _ (fun d hd => ih d (hwf i hi d hd))
        cases hj : Subtask.judgeScore (recs i) with
        | none => exact hs
        | some q =>
          have hq : 0 ≤ q := by
            refine minFoldInf_nonneg ((recs i).map Record.score) ?_ q hj
            intro x hx
            obtain ⟨r, hr, hrx⟩ := List.mem_map.mp hx
            exact hrx ▸ hscores i r hr
          exact le_min hs hq
    · rw [List.getD_eq_default _ _
        (by rw [publishedScores_length]; omega)]

/-- A zero anywhere in the dependency closure forces the direct dependency
fold to zero. -/
theorem depMin_zero_of_closure (subs : List Subtask) (recs : Nat → List Record)
    (hwf : WfDeps subs) (hscores : ∀ i, ∀ r ∈ recs i, 0 ≤ r.score)
    {i j : Nat} (hcl : InDepClosure subs i j)
    (hz : (publishedScores subs recs).getD j 0 = 0) :
    ∀ hi : i < subs.length,
      depMin (publishedScores subs recs) (subs.get ⟨i, hi⟩).dependences = 0 := by
  induction hcl with
  | @direct i j hi hj =>
    intro hi'
    refine le_antisymm ?_
      (depMin_nonneg _ _ (fun d _ => publishedScores_nonneg subs recs hwf hscores d))
    calc depMin (publishedScores subs recs) (subs.get ⟨i, hi'⟩).dependences
        ≤ (publishedScores subs recs).getD j 0 :=
          foldl_min_le_mem _ _ 1 j hj
      _ = 0 := hz
  | @step i d j hi hd hsub ih =>
    intro hi'
    have hdlt : d < subs.length := lt_trans (hwf i hi d hd) hi
    have hdm := ih hz hdlt
    have hpubd : (publishedScores subs recs).getD d 0 = 0 := by
      rw [publishedScores_getD subs recs hwf d hdlt, if_pos hdm]
    refine le_antisymm ?_
      (depMin_nonneg _ _ (fun e _ => publishedScores_nonneg subs recs hwf hscores e))
    calc depMin (publishedScores subs recs) (subs.get ⟨i, hi'⟩).dependences
        ≤ (publishedScores subs recs).getD d 0 :=
          foldl_min_le_mem _ _ 1 d hd
      _ = 0 := hpubd

/-- C3: if some subtask in the dependency closure of `i` published unscaled
score 0 — equivalently, the minimum over `i`'s direct dependency latches is
0 — then subtask `i` publishes 0 and its result list is exactly one
`Skipped` record per test. -/
theorem zero_propagation_c3 (subs : List Subtask) (recs : Nat → List Record)
    (hwf : WfDeps subs) (hscores : ∀ i, ∀ r ∈ recs i, 0 ≤ r.score)
    (i : Nat) (hi : i < subs.length) :
    ((∃ j, InDepClosure subs i j ∧ (publishedScores subs recs).getD j 0 = 0) ↔
      depMin (publishedScores subs recs) (subs.get ⟨i, hi⟩).dependences = 0) ∧
    ((∃ j, InDepClosure subs i j ∧ (publishedScores subs recs).getD j 0 = 0) →
      (publishedScores subs recs).getD i 0 = 0 ∧
      (subtaskResults subs recs).getD i [] =
        List.replicate (subs.get ⟨i, hi⟩).numTests RECORD_SKIPPED) := by
  have hiff : (∃ j, InDepClosure subs i j ∧
      (publishedScores subs recs).getD j 0 = 0) ↔
      depMin (publishedScores subs recs) (subs.get ⟨i, hi⟩).dependences = 0 := by
    constructor
    · rintro ⟨j, hcl, hz⟩
      exact depMin_zero_of_closure subs recs hwf hscores hcl hz hi
    · intro hdm
      rcases foldl_min_init_or_mem
          (fun d => (publishedScores subs recs).getD d 0)
          (subs.get ⟨i, hi⟩).dependences 1 with heq | ⟨d, hd, heq⟩
      · rw [depMin] at hdm
        rw [hdm] at heq
        norm_num at heq
      · refine ⟨d, InDepClosure.direct hi hd, ?_⟩
        rw [depMin] at hdm
        rw [hdm] at heq
        exact heq.symm
  refine ⟨hiff, fun hex => ?_⟩
  have hdm := hiff.mp hex
  constructor
  · rw [publishedScores_getD subs recs hwf i hi, if_pos hdm]
  · rw [subtaskResults_getD subs recs hwf i hi, if_pos hdm]

/-- Witness for C3: two subtasks, the first scores 0 on its single test, the
second depends on it and is skipped entirely. -/
theorem zero_propagation_c3_witness :
    (publishedScores [⟨1, [], 1⟩, ⟨2, [0], 3⟩]
      (fun _ => [⟨.wrongAnswer, 0, 0, [], 0, 0, []⟩])).getD 1 0 = 0 ∧
    (subtaskResults [⟨1, [], 1⟩, ⟨2, [0], 3⟩]
      (fun _ => [⟨.wrongAnswer, 0, 0, [], 0, 0, []⟩])).getD 1 [] =
      List.replicate 3 RECORD_SKIPPED := by
  have h := (zero_propagation_c3 [⟨1, [], 1⟩, ⟨2, [0], 3⟩]
    (fun _ => [⟨.wrongAnswer, 0, 0, [], 0, 0, []⟩])
    (by unfold WfDeps; decide)
    (by intro i r hr; simp at hr; subst hr; decide)
    1 (by norm_num)).2
    ⟨0, InDepClosure.direct (by norm_num) (by decide), by decide⟩
  exact ⟨h.1, by simpa using h.2⟩

set_option maxRecDepth 2000 in
/-- C10: a subtask with an empty test list gets unscaled score
`f32::INFINITY` (`none`) from `Subtask::judge`, and its published latch value
is the dependency fold `min(1, dependency scores)` — in particular `1` when
it has no dependences, so it contributes its full weight. -/
theorem empty_subtask_c10 (subs : List Subtask) (recs : Nat → List Record)
    (hwf : WfDeps subs) (i : Nat) (hi : i < subs.length)
    (hn : (subs.get ⟨i, hi⟩).numTests = 0)
    (hlen : (recs i).length = (subs.get ⟨i, hi⟩).numTests) :
    Subtask.judgeScore (recs i) = none ∧
    (publishedScores subs recs).getD i 0 =
      depMin (publishedScores subs recs) (subs.get ⟨i, hi⟩).dependences ∧
    ((subs.get ⟨i, hi⟩).dependences = [] →
      (publishedScores subs recs).getD i 0 = 1) := by
  have hrecs : recs i = [] := by
    rw [hn] at hlen
    exact List.length_eq_zero.mp hlen
  have hjs : Subtask.judgeScore (recs i) = none := by
    rw [hrecs]; rfl
  have hpub : (publishedScores subs recs).getD i 0 =
      depMin (publishedScores subs recs) (subs.get ⟨i, hi⟩).dependences := by
    rw [publishedScores_getD subs recs hwf i hi, hjs]
    by_cases h : depMin (publishedScores subs recs)
        (subs.get ⟨i, hi⟩).dependences = 0
    · rw [if_pos h, h]
    · rw [if_neg h]
      rfl
  refine ⟨hjs, hpub, fun hdeps => ?_⟩
  rw [hpub, hdeps]
  rfl

/-- Witness for C10: one empty subtask with no dependences publishes 1. -/
theorem empty_subtask_c10_witness :
    Subtask.judgeScore ((fun _ => []) 0 : List Record) = none ∧
    (publishedScores [⟨3, [], 0⟩] (fun _ => [])).getD 0 0 = 1 := by
  have h := empty_subtask_c10 [⟨3, [], 0⟩] (fun _ => [])
    (by unfold WfDeps; decide) 0 (by norm_num) (by decide) (by decide)
  exact ⟨h.1, h.2.2 (by decide)⟩

theorem foldl_add_eq_sum {α : Type} (l : List α) (g : α → ℚ) :
    ∀ a : ℚ, l.foldl (fun acc p => acc + g p) a = a + (l.map g).sum := by
  induction l with
  | nil => intro a; simp
  | cons p tl ih =>
    intro a
    simp only [List.foldl_cons, List.map_cons, List.sum_cons, ih, add_assoc]

theorem enumFrom_map_eq_range (h : Nat → Subtask → ℚ) (dflt : Subtask) :
    ∀ (subs : List Subtask) (k : Nat),
      (List.enumFrom k subs).map (fun p => h p.1 p.2) =
        (List.range subs.length).map (fun j => h (k + j) (subs.getD j dflt)) := by
  intro subs
  induction subs with
  | nil => intro k; rfl
  | cons s tl ih =>
    intro k
    rw [show List.enumFrom k (s :: tl) = (k, s) :: List.enumFrom (k + 1) tl
      from rfl]
    rw [List.length_cons, List.range_succ_eq_map]
    simp only [List.map_cons, List.map_map]
    have hfun : ((fun j => h (k + j) ((s :: tl).getD j dflt)) ∘ Nat.succ) =
        fun j => h ((k + 1) + j) (tl.getD j dflt) := by
      funext j
      simp only [Function.comp]
      rw [List.getD_cons_succ]
      congr 1
      omega
    rw [hfun, ← ih (k + 1)]
    simp

/-- The terminal score loop computes exactly the weighted sum of published
latch values. -/
theorem finishedScore_eq_sum (subs : List Subtask) (recs : Nat → List Record) :
    finishedScore subs recs =
      ((List.range subs.length).map (fun i =>
        (subs.getD i ⟨0, [], 0⟩).score *
          (publishedScores subs recs).getD i 0)).sum := by
  unfold finishedScore
  rw [foldl_add_eq_sum, zero_add,
    show List.enum subs = List.enumFrom 0 subs from rfl,
    enumFrom_map_eq_range
      (fun i s => s.score * (publishedScores subs recs).getD i 0) ⟨0, [], 0⟩
      subs 0]
  simp

theorem minFoldInf_replicate_zero (n : Nat) :
    minFoldInf (List.replicate n (0 : ℚ)) =
      if n = 0 then none else some 0 := by
  cases n with
  | zero => rfl
  | succ n =>
    rw [if_neg (Nat.succ_ne_zero n)]
    show (List.replicate n (0 : ℚ)).foldl _ (some 0) = some 0
    induction n with
    | zero => rfl
    | succ n ih =>
      rw [List.replicate_succ, List.foldl_cons]
      simpa using ih

/-- C4 amended: the terminal `Finished` score is exactly
`Σᵢ weightᵢ × publishedᵢ` with raw weights and no rounding or normalisation,
where `publishedᵢ` is the minimum of the scores of the records emitted for
subtask `i` (folded from `+∞`, hence `+∞` for an empty subtask) further
clamped by `min(1, dependency latches)` — the dependency fold starts at 1,
so an empty subtask with no dependences publishes 1, not the bare record
minimum. -/
theorem total_score_c4_amended (subs : List Subtask)
    (recs : Nat → List Record) (hwf : WfDeps subs) :
    finishedScore subs recs =
      ((List.range subs.length).map (fun i =>
        (subs.getD i ⟨0, [], 0⟩).score *
          (publishedScores subs recs).getD i 0)).sum ∧
    ∀ i (hi : i < subs.length),
      (publishedScores subs recs).getD i 0 =
        minWithInf
          (depMin (publishedScores subs recs) (subs.get ⟨i, hi⟩).dependences)
          (minFoldInf (((subtaskResults subs recs).getD i []).map
            Record.score)) := by
  refine ⟨finishedScore_eq_sum subs recs, fun i hi => ?_⟩
  rw [publishedScores_getD subs recs hwf i hi,
    subtaskResults_getD subs recs hwf i hi]
  by_cases hdm : depMin (publishedScores subs recs)
      (subs.get ⟨i, hi⟩).dependences = 0
  · rw [if_pos hdm, if_pos hdm, hdm]
    have hmap : (List.replicate (subs.get ⟨i, hi⟩).numTests
        RECORD_SKIPPED).map Record.score =
        List.replicate (subs.get ⟨i, hi⟩).numTests (0 : ℚ) := by
      rw [List.map_replicate]
      rfl
    rw [hmap, minFoldInf_replicate_zero]
    by_cases hn : (subs.get ⟨i, hi⟩).numTests = 0
    · rw [if_pos hn]
      rfl
    · rw [if_neg hn]
      show (0 : ℚ) = min 0 0
      rw [min_self]
  · rw [if_neg hdm, if_neg hdm]
    rfl

/-- Witness for C4 (amended) on a concrete two-subtask problem. -/
theorem total_score_c4_witness :
    finishedScore [⟨1, [], 1⟩, ⟨2, [0], 3⟩]
        (fun _ => [⟨.accepted, 0, 0, [], 0, 1, []⟩]) =
      ((List.range 2).map (fun i =>
        (([⟨1, [], 1⟩, ⟨2, [0], 3⟩] : List Subtask).getD i ⟨0, [], 0⟩).score *
          (publishedScores [⟨1, [], 1⟩, ⟨2, [0], 3⟩]
            (fun _ => [⟨.accepted, 0, 0, [], 0, 1, []⟩])).getD i 0)).sum ∧
    (publishedScores [⟨1, [], 1⟩, ⟨2, [0], 3⟩]
        (fun _ => [⟨.accepted, 0, 0, [], 0, 1, []⟩])).getD 0 0 =
      minWithInf
        (depMin (publishedScores [⟨1, [], 1⟩, ⟨2, [0], 3⟩]
            (fun _ => [⟨.accepted, 0, 0, [], 0, 1, []⟩])) [])
        (minFoldInf (((subtaskResults [⟨1, [], 1⟩, ⟨2, [0], 3⟩]
            (fun _ => [⟨.accepted, 0, 0, [], 0, 1, []⟩])).getD 0 []).map
          Record.score)) := by
  have h := total_score_c4_amended [⟨1, [], 1⟩, ⟨2, [0], 3⟩]
    (fun _ => [⟨.accepted, 0, 0, [], 0, 1, []⟩]) (by unfold WfDeps; decide)
  exact ⟨h.1, h.2 0 (by norm_num)⟩

/-- C4 counterexample: for a problem with one subtask of weight 5 and no
tests, the code publishes 1 and finishes with score 5·1 = 5, while the
claim's characterization of the published score — min over zero record
scores clamped by min over zero dependency scores — yields no finite value
(`+∞`): the claimed formula does not describe the emitted score. -/
theorem total_score_c4_counterexample :
    publishedScores [⟨5, [], 0⟩] (fun _ => []) = [1] ∧
    finishedScore [⟨5, [], 0⟩] (fun _ => []) = 5 ∧
    claimPublishedScore (([] : List Record).map Record.score) [] = none ∧
    claimPublishedScore (([] : List Record).map Record.score) [] ≠
      some ((publishedScores [⟨5, [], 0⟩] (fun _ => [])).getD 0 0) := by
  have hpub : publishedScores [⟨5, [], 0⟩] (fun _ => []) = [1] := by decide
  refine ⟨hpub, ?_, by decide, by decide⟩
  rw [finishedScore_eq_sum, hpub]
  show ((List.range 1).map _).sum = 5
  rw [show List.range 1 = [0] from rfl, List.map_singleton,
    List.sum_singleton]
  norm_num

theorem lookup_eq_none_iff (a : String) (l : List (String × Nat)) :
    List.lookup a l = none ↔ a ∉ l.map Prod.fst := by
  induction l with
  | nil => simp [List.lookup]
  | cons p tl ih =>
    obtain ⟨k, v⟩ := p
    by_cases hak : a = k
    · subst hak
      simp [List.lookup]
    · have hbeq : (a == k) = false := beq_false_of_ne hak
      simp [List.lookup, hbeq, hak, ih]

theorem lookup_some_of_mem_nodup (l : List (String × Nat))
    (hnd : (l.map Prod.fst).Nodup) {a : String} {b : Nat} (h : (a, b) ∈ l) :
    List.lookup a l = some b := by
  induction l with
  | nil => cases h
  | cons p tl ih =>
    obtain ⟨k, v⟩ := p
    rw [List.map_cons, List.nodup_cons] at hnd
    rcases List.mem_cons.mp h with heq | hmem
    · obtain ⟨ha, hb⟩ := Prod.mk.injEq .. ▸ heq
      subst ha
      subst hb
      simp [List.lookup]
    · have hk : a ≠ k := by
        intro hak
        subst hak
        exact hnd.1 (List.mem_map.mpr ⟨(a, b), hmem, rfl⟩)
      have hbeq : (a == k) = false := beq_false_of_ne hk
      simp only [List.lookup, hbeq]
      exact ih hnd.2 hmem

theorem registerOutputs_ok_eq (copyIn : List String) :
    ∀ (cs : List Cmd) (i : Nat) (acc ps : List (String × Nat)),
      registerOutputs copyIn cs i acc = .ok ps →
      ps = acc ++ (List.enumFrom i cs).map (fun p => (p.2.get_copy_out, p.1)) := by
  intro cs
  induction cs with
  | nil =>
    intro i acc ps h
    simp only [registerOutputs] at h
    cases h
    simp
  | cons c cs ih =>
    intro i acc ps h
    by_cases hci : c.get_copy_out ∈ copyIn
    · simp [registerOutputs, hci] at h
    · cases hlk : List.lookup c.get_copy_out acc with
      | some prev => simp [registerOutputs, hci, hlk] at h
      | none =>
        simp only [registerOutputs, if_neg hci, hlk] at h
        rw [ih (i + 1) _ ps h, List.append_assoc]
        rfl

theorem registerOutputs_ok_notin (copyIn : List String) :
    ∀ (cs : List Cmd) (i : Nat) (acc ps : List (String × Nat)),
      registerOutputs copyIn cs i acc = .ok ps →
      ∀ c ∈ cs, c.get_copy_out ∉ copyIn := by
  intro cs
  induction cs with
  | nil => intro i acc ps _ c hc; cases hc
  | cons c cs ih =>
    intro i acc ps h c' hc'
    by_cases hci : c.get_copy_out ∈ copyIn
    · simp [registerOutputs, hci] at h
    · cases hlk : List.lookup c.get_copy_out acc with
      | some prev => simp [registerOutputs, hci, hlk] at h
      | none =>
        simp only [registerOutputs, if_neg hci, hlk] at h
        rcases List.mem_cons.mp hc' with heq | hmem
        · exact heq ▸ hci
        · exact ih (i + 1) _ ps h c' hmem

theorem registerOutputs_ok_nodup (copyIn : List String) :
    ∀ (cs : List Cmd) (i : Nat) (acc ps : List (String × Nat)),
      (acc.map Prod.fst).Nodup →
      registerOutputs copyIn cs i acc = .ok ps →
      (ps.map Prod.fst).Nodup := by
  intro cs
  induction cs with
  | nil =>
    intro i acc ps hnd h
    simp only [registerOutputs] at h
    cases h
    exact hnd
  | cons c cs ih =>
    intro i acc ps hnd h
    by_cases hci : c.get_copy_out ∈ copyIn
    · simp [registerOutputs, hci] at h
    · cases hlk : List.lookup c.get_copy_out acc with
      | some prev => simp [registerOutputs, hci, hlk] at h
      | none =>
        simp only [registerOutputs, if_neg hci, hlk] at h
        refine ih (i + 1) _ ps ?_ h
        rw [List.map_append]
        rw [List.nodup_append]
        refine ⟨hnd, List.nodup_singleton _, ?_⟩
        intro x hx hx'
        simp only [List.map_cons, List.map_nil, List.mem_singleton] at hx'
        subst hx'
        exact (lookup_eq_none_iff _ _).mp hlk hx

theorem registerOutputs_err_shape (copyIn : List String) :
    ∀ (cs : List Cmd) (i : Nat) (acc : List (String × Nat)) (e : ParseError),
      registerOutputs copyIn cs i acc = .error e →
      ∃ d, e = .duplicateFile d := by
  intro cs
  induction cs with
  | nil => intro i acc e h; simp [registerOutputs] at h
  | cons c cs ih =>
    intro i acc e h
    by_cases hci : c.get_copy_out ∈ copyIn
    · simp only [registerOutputs, if_pos hci] at h
      cases h
      exact ⟨_, rfl⟩
    · cases hlk : List.lookup c.get_copy_out acc with
      | some prev =>
        simp only [registerOutputs, if_neg hci, hlk] at h
        cases h
        exact ⟨_, rfl⟩
      | none =>
        simp only [registerOutputs, if_neg hci, hlk] at h
        exact ih (i + 1) _ e h

theorem checkInputs_ok (copyIn : List String)
    (providers : List (String × Nat)) :
    ∀ (cs : List Cmd) (i : Nat),
      checkInputs copyIn providers cs i = .ok () →
      ∀ c ∈ cs, ∀ f ∈ c.get_copy_in,
        f ∈ copyIn ∨ f ∈ providers.map Prod.fst := by
  intro cs
  induction cs with
  | nil => intro i _ c hc; cases hc
  | cons c cs ih =>
    intro i h c' hc' f hf
    cases hfind : c.get_copy_in.find?
        (unresolvedInput copyIn (providers.map Prod.fst)) with
    | some g =>
      simp only [checkInputs, hfind] at h
      cases h
    | none =>
      simp only [checkInputs, hfind] at h
      rcases List.mem_cons.mp hc' with heq | hmem
      · subst heq
        have hnu := List.find?_eq_none.mp hfind f hf
        unfold unresolvedInput at hnu
        simp only [Bool.not_eq_true', Bool.not_eq_false] at hnu
        rcases Bool.or_eq_true_iff.mp hnu with hl | hr
        · exact Or.inl (by simpa using hl)
        · exact Or.inr (by simpa using hr)
      · exact ih (i + 1) h c' hmem f hf

theorem checkGlobalOut_ok (providers : List (String × Nat)) :
    ∀ (fs : List String),
      checkGlobalOut providers fs = .ok () →
      ∀ f ∈ fs, f ∈ providers.map Prod.fst := by
  intro fs
  induction fs with
  | nil => intro _ f hf; cases hf
  | cons g gs ih =>
    intro h f hf
    simp only [checkGlobalOut] at h
    by_cases hg : (providers.map Prod.fst).contains g = true
    · rw [if_pos hg] at h
      rcases List.mem_cons.mp hf with heq | hmem
      · subst heq
        simpa using hg
      · exact ih h f hmem
    · rw [if_neg hg] at h
      cases h

/-- Facts delivered by a successful `Workflow::parse`: the provider map
enumerates the task outputs in order, its keys (the output names) are
distinct, no output name collides with a global `copy_in` name, every task
input is resolvable, and every global `copy_out` is a task output. -/
theorem parse_ok_facts (w : Workflow) (ps : List (String × Nat))
    (h : w.parse = .ok ps) :
    ps.map Prod.fst = w.tasks.map Cmd.get_copy_out ∧
    (w.tasks.map Cmd.get_copy_out).Nodup ∧
    (∀ c ∈ w.tasks, c.get_copy_out ∉ w.copy_in) ∧
    (∀ c ∈ w.tasks, ∀ f ∈ c.get_copy_in,
      f ∈ w.copy_in ∨ f ∈ w.tasks.map Cmd.get_copy_out) ∧
    (∀ f ∈ w.copy_out, f ∈ w.tasks.map Cmd.get_copy_out) := by
  unfold Workflow.parse at h
  cases hro : registerOutputs w.copy_in w.tasks 0 [] with
  | error e => simp only [hro] at h; simp at h
  | ok providers =>
    simp only [hro] at h
    cases hci : checkInputs w.copy_in providers w.tasks 0 with
    | error e => simp only [hci] at h; simp at h
    | ok u =>
      cases u
      simp only [hci] at h
      cases hgo : checkGlobalOut providers w.copy_out with
      | error e => simp only [hgo] at h; simp at h
      | ok u =>
        cases u
        simp only [hgo] at h
        cases h
        have hkeys : ps.map Prod.fst = w.tasks.map Cmd.get_copy_out := by
          rw [registerOutputs_ok_eq w.copy_in w.tasks 0 [] ps hro]
          rw [List.nil_append, List.map_map]
          have : (List.enumFrom 0 w.tasks).map
              (Prod.fst ∘ fun p => (p.2.get_copy_out, p.1)) =
              (List.enumFrom 0 w.tasks).map (Cmd.get_copy_out ∘ Prod.snd) :=
            rfl
          rw [this, ← List.map_map]
          congr 1
          exact List.enumFrom_map_snd 0 w.tasks
        have hnd : (w.tasks.map Cmd.get_copy_out).Nodup := by
          rw [← hkeys]
          exact registerOutputs_ok_nodup w.copy_in w.tasks 0 [] ps
            (by simp) hro
        refine ⟨hkeys, hnd,
          registerOutputs_ok_notin w.copy_in w.tasks 0 [] ps hro, ?_, ?_⟩
        · intro c hc f hf
          rcases checkInputs_ok w.copy_in ps w.tasks 0 hci c hc f hf
            with hl | hr
          · exact Or.inl hl
          · exact Or.inr (hkeys ▸ hr)
        · intro f hf
          exact hkeys ▸ checkGlobalOut_ok ps w.copy_out hgo f hf

/-- C5 counterexample: with three tasks all outputting `"b.c"`, the pair
(0, 2) satisfies "two tasks with indices index1 < index2 both declare the
same output name", yet `parse` reports `Prev {0, 1, "b.c"}` — a single
error for the first conflict in task order, not one per offending pair. -/
theorem workflow_parse_c5_counterexample :
    Workflow.parse ⟨["a.c"],
        [.compile "c" [] "a.c" [] "b.c", .compile "c" [] "a.c" [] "b.c",
          .compile "c" [] "a.c" [] "b.c"], []⟩ =
      .error (.duplicateFile (.prev 0 1 "b.c")) ∧
    (Cmd.compile "c" [] "a.c" [] "b.c").get_copy_out =
      (Cmd.compile "c" [] "a.c" [] "b.c").get_copy_out ∧
    DuplicateFileError.prev 0 1 "b.c" ≠ DuplicateFileError.prev 0 2 "b.c" := by
  refine ⟨?_, rfl, by decide⟩
  decide

/-- C5 amended: a successful `parse` guarantees exactly one producer for
every task input and every global `copy_out`, and no task output collides
with a global `copy_in` name.  When two tasks declare the same output name,
`parse` returns a `DuplicateFile` error — one error for the first conflict
in task order, not one per offending pair; on the three-Compile scenario
(#0 and #2 both outputting `"b.c"`) it is `Prev {0, 2, "b.c"}`. -/
theorem workflow_parse_c5_amended :
    (∀ (w : Workflow) (ps : List (String × Nat)), w.parse = .ok ps →
      (∀ c ∈ w.tasks, ∀ f ∈ c.get_copy_in, producersCount w f = 1) ∧
      (∀ f ∈ w.copy_out, producersCount w f = 1) ∧
      (∀ c ∈ w.tasks, c.get_copy_out ∉ w.copy_in)) ∧
    (∀ w : Workflow,
      (∃ (i1 i2 : Nat) (h1 : i1 < w.tasks.length) (h2 : i2 < w.tasks.length),
        i1 < i2 ∧ (w.tasks.get ⟨i1, h1⟩).get_copy_out =
          (w.tasks.get ⟨i2, h2⟩).get_copy_out) →
      ∃ d, w.parse = .error (.duplicateFile d)) ∧
    Workflow.parse ⟨["a.c"],
        [.compile "c" [] "a.c" [] "b.c", .compile "c" [] "b.c" [] "c.c",
          .compile "c" [] "c.c" [] "b.c"], []⟩ =
      .error (.duplicateFile (.prev 0 2 "b.c")) := by
  refine ⟨?_, ?_, by decide⟩
  · intro w ps h
    obtain ⟨hkeys, hnd, hnotin, hinputs, hout⟩ := parse_ok_facts w ps h
    have hcount : ∀ f, f ∈ w.copy_in ∨ f ∈ w.tasks.map Cmd.get_copy_out →
        producersCount w f = 1 := by
      intro f hf
      unfold producersCount
      rcases hf with hci | hto
      · rw [if_pos hci]
        have hfil : w.tasks.filter (fun c => c.get_copy_out == f) = [] := by
          rw [List.filter_eq_nil_iff]
          intro c hc hcf
          exact hnotin c hc ((eq_of_beq hcf) ▸ hci)
        rw [hfil]
        rfl
      · have hnotci : f ∉ w.copy_in := by
          obtain ⟨c, hc, hcf⟩ := List.mem_map.mp hto
          intro hf
          exact hnotin c hc (hcf ▸ hf)
        rw [if_neg hnotci]
        have hlen : (w.tasks.filter (fun c => c.get_copy_out == f)).length =
            (w.tasks.map Cmd.get_copy_out).count f := by
          rw [List.count, List.countP_map]
          rw [← List.countP_eq_length_filter]
          rfl
        rw [hlen, List.count_eq_one_of_mem hnd hto]
    refine ⟨?_, ?_, hnotin⟩
    · intro c hc f hf
      exact hcount f (hinputs c hc f hf)
    · intro f hf
      exact hcount f (Or.inr (hout f hf))
  · intro w hdup
    obtain ⟨i1, i2, h1, h2, hlt, heq⟩ := hdup
    cases hro : registerOutputs w.copy_in w.tasks 0 [] with
    | ok providers =>
      exfalso
      have hkeys : providers.map Prod.fst = w.tasks.map Cmd.get_copy_out := by
        rw [registerOutputs_ok_eq w.copy_in w.tasks 0 [] providers hro,
          List.nil_append, List.map_map]
        rw [show (Prod.fst ∘ fun p : Nat × Cmd => (p.2.get_copy_out, p.1)) =
          (Cmd.get_copy_out ∘ Prod.snd) from rfl, ← List.map_map]
        congr 1
        exact List.enumFrom_map_snd 0 w.tasks
      have hnd : (w.tasks.map Cmd.get_copy_out).Nodup := by
        rw [← hkeys]
        exact registerOutputs_ok_nodup w.copy_in w.tasks 0 [] providers
          (by simp) hro
      have h1m : i1 < (w.tasks.map Cmd.get_copy_out).length := by
        simpa using h1
      have h2m : i2 < (w.tasks.map Cmd.get_copy_out).length := by
        simpa using h2
      have hgeteq : (w.tasks.map Cmd.get_copy_out)[i1] =
          (w.tasks.map Cmd.get_copy_out)[i2] := by
        rw [List.getElem_map, List.getElem_map]
        simpa [List.get_eq_getElem] using heq
      have := (List.Nodup.getElem_inj_iff hnd).mp hgeteq
      omega
    | error e =>
      obtain ⟨d, hd⟩ := registerOutputs_err_shape w.copy_in w.tasks 0 [] e hro
      refine ⟨d, ?_⟩
      unfold Workflow.parse
      rw [hro, hd]

/-- Witness for C5 (amended) at a concrete parsed workflow. -/
theorem workflow_parse_c5_witness :
    producersCount ⟨["a.c"], [.compile "c" [] "a.c" [] "b.c"], ["b.c"]⟩
      "a.c" = 1 ∧
    producersCount ⟨["a.c"], [.compile "c" [] "a.c" [] "b.c"], ["b.c"]⟩
      "b.c" = 1 ∧
    (Cmd.compile "c" [] "a.c" [] "b.c").get_copy_out ∉ (["a.c"] : List String) := by
  have h := (workflow_parse_c5_amended.1
    ⟨["a.c"], [.compile "c" [] "a.c" [] "b.c"], ["b.c"]⟩ [("b.c", 0)]
    (by decide))
  exact ⟨h.1 (.compile "c" [] "a.c" [] "b.c") (by decide) "a.c" (by decide),
    h.2.1 "b.c" (by decide),
    h.2.2 (.compile "c" [] "a.c" [] "b.c") (by decide)⟩

theorem uploadCopyIn_spec :
    ∀ (names : List String) (st : ExecSt),
      ∃ E, (uploadCopyIn names st).env = st.env ++ E ∧
        E.map Prod.fst = names ∧
        (uploadCopyIn names st).created = st.created ++ E.map Prod.snd := by
  intro names
  induction names with
  | nil => intro st; exact ⟨[], by simp [uploadCopyIn], rfl, by simp [uploadCopyIn]⟩
  | cons name rest ih =>
    intro st
    obtain ⟨E, henv, hfst, hcr⟩ := ih
      { env := st.env ++ [(name, st.nextId)],
        created := st.created ++ [st.nextId], nextId := st.nextId + 1 }
    refine ⟨(name, st.nextId) :: E, ?_, ?_, ?_⟩
    · rw [show uploadCopyIn (name :: rest) st = uploadCopyIn rest
        { env := st.env ++ [(name, st.nextId)],
          created := st.created ++ [st.nextId], nextId := st.nextId + 1 }
        from rfl, henv]
      simp
    · simp [hfst]
    · rw [show uploadCopyIn (name :: rest) st = uploadCopyIn rest
        { env := st.env ++ [(name, st.nextId)],
          created := st.created ++ [st.nextId], nextId := st.nextId + 1 }
        from rfl, hcr]
      simp

theorem findReady_perm (env : List (String × Nat)) :
    ∀ (rem : List (Nat × Cmd)) (u : Nat × Cmd) (rest : List (Nat × Cmd)),
      findReady env rem = some (u, rest) → rem.Perm (u :: rest) := by
  intro rem
  induction rem with
  | nil => intro u rest h; cases h
  | cons t tl ih =>
    intro u rest h
    by_cases hr : readyTask env t.2
    · simp only [findReady, if_pos hr] at h
      cases h
      exact List.Perm.refl _
    · simp only [findReady, if_neg hr] at h
      cases hf : findReady env tl with
      | none => rw [hf] at h; cases h
      | some p =>
        obtain ⟨u2, rest2⟩ := p
        rw [hf] at h
        simp only [Option.some.injEq, Prod.mk.injEq] at h
        obtain ⟨hu, hrest⟩ := h
        rw [← hu, ← hrest]
        exact ((ih u2 rest2 hf).cons t).trans (List.Perm.swap _ _ _)

theorem schedule_done_spec (oracle : Nat → Bool) :
    ∀ (fuel : Nat) (rem : List (Nat × Cmd)) (st st' : ExecSt),
      schedule oracle fuel rem st = (.done, st') →
      ∃ E, st'.env = st.env ++ E ∧
        st'.created = st.created ++ E.map Prod.snd ∧
        (E.map Prod.fst).Perm (rem.map (fun t => t.2.get_copy_out)) := by
  intro fuel
  induction fuel with
  | zero =>
    intro rem st st' h
    cases rem with
    | nil =>
      simp only [schedule] at h
      cases h
      exact ⟨[], by simp, by simp, by simp⟩
    | cons t tl => simp [schedule] at h
  | succ fuel ih =>
    intro rem st st' h
    cases rem with
    | nil =>
      simp only [schedule] at h
      cases h
      exact ⟨[], by simp, by simp, by simp⟩
    | cons t tl =>
      simp only [schedule] at h
      cases hf : findReady st.env (t :: tl) with
      | none => simp only [hf] at h; simp at h
      | some p =>
        obtain ⟨⟨i, c⟩, rest⟩ := p
        simp only [hf] at h
        by_cases ho : oracle i = true
        · rw [if_pos ho] at h
          obtain ⟨E', henv, hcr, hperm⟩ := ih rest (runTask st c) st' h
          refine ⟨(c.get_copy_out, st.nextId) :: E', ?_, ?_, ?_⟩
          · rw [henv]
            simp [runTask]
          · rw [hcr]
            simp [runTask]
          · have hrem : (t :: tl).Perm ((i, c) :: rest) :=
              findReady_perm st.env (t :: tl) (i, c) rest hf
            have hmap := hrem.map (fun t : Nat × Cmd => t.2.get_copy_out)
            exact (List.Perm.cons _ hperm).trans hmap.symm
        · rw [if_neg ho] at h
          simp at h

/-- C6 counterexample: a workflow with one global `copy_in` file and one
failing task.  `exec` uploads the file (id 0), the task fails, and `exec`
returns the error with no deletes issued and no handles returned: id 0 is
created but neither deleted nor part of any returned `copy_out` handle. -/
theorem workflow_exec_c6_counterexample :
    Workflow.exec ⟨["a.c"], [.compile "c" [] "a.c" [] "b.c"], []⟩
        (fun _ => false) =
      (.taskErr 0, [0], []) ∧
    (0 ∈ ([0] : List Nat)) ∧ (0 ∉ ([] : List Nat)) := by
  refine ⟨by decide, by decide, by decide⟩

/-- C6 amended: in every *successful* completed execution, every sandbox
file id created (global `copy_in` uploads and task outputs) is either
deleted or returned under a `copy_out` name.  On a failed execution `exec`
returns immediately and the created ids leak (see the counterexample). -/
theorem workflow_exec_c6_amended (w : Workflow) (oracle : Nat → Bool)
    (hnodup : w.copy_in.Nodup)
    (res : List (String × Nat)) (created deleted : List Nat)
    (hexec : w.exec oracle = (.ok res, created, deleted)) :
    ∀ id ∈ created, id ∈ deleted ∨
      ∃ name, name ∈ w.copy_out ∧ (name, id) ∈ res := by
  unfold Workflow.exec at hexec
  cases hp : w.parse with
  | error e => simp only [hp] at hexec; simp at hexec
  | ok providers =>
    simp only [hp] at hexec
    obtain ⟨_, hnd, hnotin, _, _⟩ := parse_ok_facts w providers hp
    cases hs : schedule oracle w.tasks.length w.tasks.enum
        (uploadCopyIn w.copy_in ⟨[], [], 0⟩) with
    | mk out st =>
      cases out with
      | done =>
        simp only [hs] at hexec
        simp only [Prod.mk.injEq, WorkflowOutcome.ok.injEq] at hexec
        obtain ⟨hres, hcr, hdel⟩ := hexec
        obtain ⟨E0, henv0, hfst0, hcr0⟩ := uploadCopyIn_spec w.copy_in ⟨[], [], 0⟩
        rw [List.nil_append] at henv0
        rw [List.nil_append] at hcr0
        obtain ⟨E, henv, hcrE, hperm⟩ := schedule_done_spec oracle
          w.tasks.length w.tasks.enum _ st hs
        rw [henv0] at henv
        rw [hcr0] at hcrE
        have houts : (E.map Prod.fst).Perm (w.tasks.map Cmd.get_copy_out) := by
          refine hperm.trans ?_
          rw [show (fun t : Nat × Cmd => t.2.get_copy_out) =
            (Cmd.get_copy_out ∘ Prod.snd) from rfl, ← List.map_map]
          rw [show List.enum w.tasks = List.enumFrom 0 w.tasks from rfl,
            List.enumFrom_map_snd]
        have hkeysnd : (st.env.map Prod.fst).Nodup := by
          rw [henv, List.map_append, hfst0]
          rw [List.nodup_append]
          refine ⟨hnodup, houts.nodup_iff.mpr hnd, ?_⟩
          intro x hx hx'
          have hxout : x ∈ w.tasks.map Cmd.get_copy_out :=
            houts.mem_iff.mp hx'
          obtain ⟨c, hc, hcx⟩ := List.mem_map.mp hxout
          exact hnotin c hc (hcx ▸ hx)
        intro id hid
        rw [← hcr] at hid
        rw [hcrE, List.mem_append] at hid
        have hname : ∃ name, (name, id) ∈ st.env ∧
            (name ∈ w.copy_in ∨ name ∈ w.tasks.map Cmd.get_copy_out) := by
          rcases hid with hid0 | hidE
          · obtain ⟨p, hp0, hpid⟩ := List.mem_map.mp hid0
            have hpeq : (p.1, id) = p := by rw [← hpid]
            refine ⟨p.1, ?_, Or.inl ?_⟩
            · rw [henv]
              exact List.mem_append.mpr (Or.inl (hpeq ▸ hp0))
            · rw [← hfst0]
              exact List.mem_map.mpr ⟨p, hp0, rfl⟩
          · obtain ⟨p, hpE, hpid⟩ := List.mem_map.mp hidE
            have hpeq : (p.1, id) = p := by rw [← hpid]
            refine ⟨p.1, ?_, Or.inr ?_⟩
            · rw [henv]
              exact List.mem_append.mpr (Or.inr (hpeq ▸ hpE))
            · exact houts.mem_iff.mp (List.mem_map.mpr ⟨p, hpE, rfl⟩)
        obtain ⟨name, hmem, hsrc⟩ := hname
        by_cases hco : name ∈ w.copy_out
        · exact Or.inr ⟨name, hco, hres ▸ hmem⟩
        · left
          rw [← hdel]
          refine List.mem_filterMap.mpr ⟨name, ?_,
            lookup_some_of_mem_nodup st.env hkeysnd hmem⟩
          rw [List.mem_append]
          rcases hsrc with hci | hto
          · exact Or.inl (List.mem_filter.mpr ⟨hci, by
              simpa using hco⟩)
          · exact Or.inr (List.mem_filter.mpr ⟨hto, by
              simpa using hco⟩)
      | failed i => simp only [hs] at hexec; simp at hexec
      | stuck => simp only [hs] at hexec; simp at hexec

/-- Witness for C6 (amended): a one-task workflow whose output is exported;
the uploaded input file (id 0) is deleted, the produced file (id 1) is
returned under `copy_out`. -/
theorem workflow_exec_c6_witness :
    (0 ∈ ([0] : List Nat) ∨ ∃ name, name ∈ (["b.c"] : List String) ∧
      (name, 0) ∈ ([("a.c", 0), ("b.c", 1)] : List (String × Nat))) ∧
    (1 ∈ ([0] : List Nat) ∨ ∃ name, name ∈ (["b.c"] : List String) ∧
      (name, 1) ∈ ([("a.c", 0), ("b.c", 1)] : List (String × Nat))) := by
  have h := workflow_exec_c6_amended
    ⟨["a.c"], [.compile "c" [] "a.c" [] "b.c"], ["b.c"]⟩ (fun _ => true)
    (by decide) [("a.c", 0), ("b.c", 1)] [0, 1] [0] (by decide)
  exact ⟨h 0 (by decide), h 1 (by decide)⟩

end Rindag
